import Mathlib

/-!
Verification of the WebVTT-in-ISO-BMFF fragmenter (shaka-packager,
`packager/media/formats/mp4/webvtt_fragmenter`) and of
`packager/media/base/media_sample.cc`.

The fragmenter implementation itself is not part of the excerpted sources
(only its unit test is), so the fragmenter, the `VTTCueBox` /
`VTTEmptyCueBox` serializer and the push/flush/pop surface are modelled
from the specification (spec.md §3, §4.1, §4.3, §4.4).  `MediaSample` is
embedded directly from `media_sample.cc`, which is in the sources.

Timestamps are modelled as natural numbers: the spec describes them as
opaque unsigned integers with `end_time = start_time + duration` and never
appeals to wrap-around behaviour.
-/

/-- Modelled from the spec: the input cue record (§3 "Cue (input record)"):
`start_time`, `duration` (with derived `end_time = start_time + duration`),
and the three byte strings `identifier`, `settings`, `payload`.
Byte strings are lists of byte values. -/
structure Cue where
  start_time : Nat
  duration : Nat
  cue_id : List Nat
  settings : List Nat
  cue_text : List Nat
deriving Repr, DecidableEq

/-- Derived end time of a cue (§3): `end_time = start_time + duration`. -/
def Cue.end_time (c : Cue) : Nat := c.start_time + c.duration

/-- Big-endian 32-bit encoding of a size field (§4.1: "4-byte big-endian
total size"). -/
def be32 (n : Nat) : List Nat :=
  [n / 2 ^ 24 % 256, n / 2 ^ 16 % 256, n / 2 ^ 8 % 256, n % 256]

/-- ISO-BMFF box framing (§4.1): 4-byte big-endian total size (including
the 8 header bytes), 4-byte ASCII type tag, then the payload. -/
def boxBytes (tag : List Nat) (content : List Nat) : List Nat :=
  be32 (8 + content.length) ++ tag ++ content

/-- ASCII bytes of the tag `'iden'`. -/
def idenTag : List Nat := [0x69, 0x64, 0x65, 0x6e]

/-- ASCII bytes of the tag `'sttg'`. -/
def sttgTag : List Nat := [0x73, 0x74, 0x74, 0x67]

/-- ASCII bytes of the tag `'payl'`. -/
def paylTag : List Nat := [0x70, 0x61, 0x79, 0x6c]

/-- ASCII bytes of the tag `'vttc'`. -/
def vttcTag : List Nat := [0x76, 0x74, 0x74, 0x63]

/-- ASCII bytes of the tag `'vtte'`. -/
def vtteTag : List Nat := [0x76, 0x74, 0x74, 0x65]

/-- Modelled from the spec (§4.1): the ordered list of (tag, content)
pairs of the sub-boxes present in a `VTTCueBox` payload — `'iden'`,
`'sttg'`, `'payl'` in that order, each present only if the corresponding
string is non-empty (`'ctim'` is never populated here, per §4.1). -/
def cuePairs (c : Cue) : List (List Nat × List Nat) :=
  (if c.cue_id = [] then [] else [(idenTag, c.cue_id)]) ++
  (if c.settings = [] then [] else [(sttgTag, c.settings)]) ++
  (if c.cue_text = [] then [] else [(paylTag, c.cue_text)])

/-- Modelled from the spec (§4.1): payload of a `VTTCueBox`, the ordered
concatenation of its present sub-boxes. -/
def cuePayload (c : Cue) : List Nat :=
  ((cuePairs c).map (fun p => boxBytes p.1 p.2)).flatten

/-- Modelled from the spec (§4.1): serialization of a `VTTCueBox`
(type tag `'vttc'`). -/
def serializeVTTCueBox (c : Cue) : List Nat :=
  boxBytes vttcTag (cuePayload c)

/-- Modelled from the spec (§4.1): serialization of a `VTTEmptyCueBox`
(type tag `'vtte'`, empty payload, 8 bytes total). -/
def serializeVTTEmptyCueBox : List Nat := boxBytes vtteTag []

/-- The bytes of the string "some message" (test vector of §4.1). -/
def someMessageBytes : List Nat :=
  [0x73, 0x6f, 0x6d, 0x65, 0x20, 0x6d, 0x65, 0x73, 0x73, 0x61, 0x67, 0x65]

/-- The bytes of the string "hi". -/
def hiBytes : List Nat := [0x68, 0x69]

/-- The bytes of the string "hello". -/
def helloBytes : List Nat := [0x68, 0x65, 0x6c, 0x6c, 0x6f]

/-- An output sample (§3 "Output sample"): `pts`, `duration` and the
`data` byte buffer; it covers the half-open interval
`[pts, pts + duration)`. -/
structure OutputSample where
  pts : Nat
  duration : Nat
  data : List Nat
deriving Repr, DecidableEq

/-- Modelled from the spec: the fragmenter state (§4.3–§4.5).
`started` records whether any cue has ever been pushed, `cursor` is the
timestamp through which output has been emitted, `active` is the active
cue set kept in arrival (push) order, and `ready` is the FIFO pending
queue of completed output samples. -/
structure WebVttFragmenter where
  started : Bool
  cursor : Nat
  active : List Cue
  ready : List OutputSample
deriving Repr, DecidableEq

/-- The initial fragmenter state: nothing pushed, nothing emitted. -/
def initFragmenter : WebVttFragmenter :=
  { started := false, cursor := 0, active := [], ready := [] }

/-- Whether a cue is still active strictly past time `t`
(eviction keeps exactly the cues with `t < end_time`, §4.3). -/
def stillActive (t : Nat) (c : Cue) : Bool := decide (t < c.end_time)

/-- Modelled from the spec (§4.2): eviction at time `t` removes every
entry whose `end_time ≤ t`, keeping arrival order of the rest. -/
def evictCues (t : Nat) (active : List Cue) : List Cue :=
  active.filter (stillActive t)

/-- Modelled from the spec (§4.2): the minimum end time among the
current active entries (`earliest_end`); 0 on an empty set (unused). -/
def earliestEnd : List Cue → Nat
  | [] => 0
  | c :: rest => rest.foldl (fun m x => min m x.end_time) c.end_time

/-- Modelled from the spec (§4.3): the data of a sample composed from a
non-empty active set — concatenation, in arrival order, of the serialized
`VTTCueBox` of every active cue. -/
def activeData (active : List Cue) : List Nat :=
  (active.map serializeVTTCueBox).flatten

/-- Modelled from the spec (§4.3, loop body of advance-to): emit one
output sample covering `[cursor, earliest_end)` composed from the active
set (skipped if the interval is empty), move the cursor to
`earliest_end`, and evict every entry ending there. -/
def drainStep (st : WebVttFragmenter) : WebVttFragmenter :=
  let tNext := earliestEnd st.active
  if st.cursor < tNext then
    { st with cursor := tNext,
              active := evictCues tNext st.active,
              ready := st.ready ++
                [⟨st.cursor, tNext - st.cursor, activeData st.active⟩] }
  else { st with active := evictCues tNext st.active }

/-- Whether the earliest end `t` is within the advance target:
always for a flush (target `none`), and `t ≤ u` for advance-to `u`. -/
def withinTarget (target : Option Nat) (t : Nat) : Bool :=
  match target with
  | none => true
  | some u => decide (t ≤ u)

/-- Modelled from the spec (§4.3): the advance-to / flush loop — while
the active set is non-empty and its earliest end is within the target,
run one `drainStep`.  The loop is run with fuel `st.active.length`, which
suffices because every step evicts at least one entry (the loop
postcondition is proved below in `drainAux_spec`). -/
def drainAux (target : Option Nat) : Nat → WebVttFragmenter → WebVttFragmenter
  | 0, st => st
  | fuel + 1, st =>
    if st.active = [] then st
    else if withinTarget target (earliestEnd st.active) then
      drainAux target fuel (drainStep st)
    else st

/-- The advance-to / flush loop at its natural fuel. -/
def drainLoop (st : WebVttFragmenter) (target : Option Nat) : WebVttFragmenter :=
  drainAux target st.active.length st

/-- Modelled from the spec (§4.3, advance-to): run the loop up to
`t`, then emit the final partial segment `[cursor, t)` — composed from
the remaining active cues, or a single `VTTEmptyCueBox` if the active
set is empty (a gap). -/
def advanceTo (st : WebVttFragmenter) (t : Nat) : WebVttFragmenter :=
  let st1 := drainLoop st (some t)
  if st1.cursor < t then
    if st1.active = [] then
      { st1 with cursor := t,
                 ready := st1.ready ++
                   [⟨st1.cursor, t - st1.cursor, serializeVTTEmptyCueBox⟩] }
    else
      { st1 with cursor := t,
                 ready := st1.ready ++
                   [⟨st1.cursor, t - st1.cursor, activeData st1.active⟩] }
  else st1

/-- Modelled from the spec (§4.3 push, §4.4 `push_sample`): on the very
first cue initialize the cursor to its start time; otherwise, if the cue
starts past the cursor, advance the timeline to its start.  Then append
the cue to the active set with the next arrival index (list order is
arrival order). -/
def pushSample (st : WebVttFragmenter) (c : Cue) : WebVttFragmenter :=
  let st1 :=
    if st.started = false then
      { st with started := true, cursor := c.start_time }
    else if st.cursor < c.start_time then advanceTo st c.start_time
    else st
  { st1 with active := st1.active ++ [c] }

/-- Modelled from the spec (§4.3 flush, §4.4 `flush`): drain the active
set completely (advance-to `+∞`). -/
def flushFragmenter (st : WebVttFragmenter) : WebVttFragmenter :=
  drainLoop st none

/-- Push a whole list of cues in order, starting from the initial state. -/
def pushAll (cs : List Cue) : WebVttFragmenter :=
  cs.foldl pushSample initFragmenter

/-- A complete run: push every cue in order, then flush (§8). -/
def runPushes (cs : List Cue) : WebVttFragmenter :=
  flushFragmenter (pushAll cs)

/-- §4.4 `ready_samples_size`: number of queued completed outputs. -/
def readySamplesSize (st : WebVttFragmenter) : Nat := st.ready.length

/-- §4.4 `pop_sample`: remove and return the front of the pending queue
(`none` when the queue is empty, modelling the precondition). -/
def popSample (st : WebVttFragmenter) :
    Option (OutputSample × WebVttFragmenter) :=
  match st.ready with
  | [] => none
  | s :: rest => some (s, { st with ready := rest })

/-- Repeatedly pop until the queue is empty, collecting the samples in
pop order (fuel `st.ready.length` suffices: each pop shortens the
queue). -/
def popAllAux : Nat → WebVttFragmenter → List OutputSample
  | 0, _ => []
  | fuel + 1, st =>
    match popSample st with
    | none => []
    | some (s, st') => s :: popAllAux fuel st'

/-- Repeatedly pop until the queue is empty. -/
def popAll (st : WebVttFragmenter) : List OutputSample :=
  popAllAux st.ready.length st

/-- The cues that the spec calls active over the whole interval
`[a, b)`: those with `start_time ≤ a` and `b ≤ end_time`, in arrival
(list) order (§8 (P2)). -/
def activeCues (cs : List Cue) (a b : Nat) : List Cue :=
  cs.filter (fun c => decide (c.start_time ≤ a) && decide (b ≤ c.end_time))

/-- The data the spec mandates for a sample covering `[a, b)` (§3
invariant 4): concatenated cue boxes of the active cues in arrival
order, or a single empty-cue box when none is active. -/
def expectedData (cs : List Cue) (a b : Nat) : List Nat :=
  if activeCues cs a b = [] then serializeVTTEmptyCueBox
  else ((activeCues cs a b).map serializeVTTCueBox).flatten

/-- Input precondition (§3 invariant 5): cues are pushed with
non-decreasing start times. -/
def sortedStarts (cs : List Cue) : Prop :=
  List.Chain' (fun a b => a.start_time ≤ b.start_time) cs

/-- Input precondition (§4.4): every pushed cue has positive duration. -/
def posDur (cs : List Cue) : Prop := ∀ c ∈ cs, 0 < c.duration

/-- Start time of the first pushed cue (0 if none). -/
def firstStart (cs : List Cue) : Nat :=
  (cs.head?.map Cue.start_time).getD 0

/-- Start time of the last pushed cue (0 if none). -/
def lastStart (cs : List Cue) : Nat :=
  (cs.getLast?.map Cue.start_time).getD 0

/-- Maximum end time over a list of cues (0 if none). -/
def maxEnd (cs : List Cue) : Nat :=
  cs.foldl (fun m c => max m c.end_time) 0

/-- A list of output samples tiles the half-open interval `[a, b)`
exactly: they are contiguous, have positive durations, start at `a` and
end at `b`. -/
def ChainFrom : Nat → Nat → List OutputSample → Prop
  | a, b, [] => a = b
  | a, b, s :: rest =>
    s.pts = a ∧ 0 < s.duration ∧ ChainFrom (a + s.duration) b rest

/-- The active cues of `[a, b)` together with their arrival indices
(the position at which each cue was pushed). -/
def activeIdx (cs : List Cue) (a b : Nat) : List (Nat × Cue) :=
  cs.enum.filter
    (fun q => decide (q.2.start_time ≤ a) && decide (b ≤ q.2.end_time))

/-- Read a big-endian 32-bit integer from the first four bytes. -/
def readBE32 : List Nat → Option Nat
  | b0 :: b1 :: b2 :: b3 :: _ =>
    some (((b0 * 256 + b1) * 256 + b2) * 256 + b3)
  | _ => none

/-- Parse a byte buffer as a sequence of ISO-BMFF boxes, returning the
(tag, content) pairs; stops on a malformed header.  Fuel
`bytes.length` suffices since every parsed box consumes at least 8
bytes. -/
def parseBoxesAux : Nat → List Nat → List (List Nat × List Nat)
  | 0, _ => []
  | fuel + 1, bytes =>
    match readBE32 bytes with
    | none => []
    | some n =>
      if 8 ≤ n ∧ n ≤ bytes.length then
        ((bytes.drop 4).take 4, (bytes.drop 8).take (n - 8))
          :: parseBoxesAux fuel (bytes.drop n)
      else []

/-- Parse a byte buffer as a sequence of ISO-BMFF boxes. -/
def parseBoxes (bytes : List Nat) : List (List Nat × List Nat) :=
  parseBoxesAux bytes.length bytes

/-- The cue's strings are small enough that every box size fits the
32-bit big-endian size field. -/
def smallCue (c : Cue) : Prop :=
  8 + c.cue_id.length < 2 ^ 32 ∧ 8 + c.settings.length < 2 ^ 32 ∧
  8 + c.cue_text.length < 2 ^ 32

/-- Embedded from `media_sample.h`/`media_sample.cc`: the fields of
`MediaSample` relevant here (buffers as byte lists). -/
structure MediaSample where
  dts : Int
  pts : Int
  duration : Int
  is_key_frame : Bool
  is_encrypted : Bool
  data : List Nat
  side_data : List Nat
deriving Repr, DecidableEq

/-- Embedded from `media_sample.cc`,
`MediaSample::MediaSample(data, size, side_data, side_data_size,
is_key_frame)`: a pointer is `none` (null) or `some` buffer; reading
`size` bytes from buffer `bs` copies `bs.take size`.  The constructor
`CHECK_EQ(size, 0u)`s when `data` is null (modelled as `none` result),
then assigns `data_` from the `size` bytes and `side_data_` from the
side-data pointer if non-null; `dts`, `pts`, `duration` start at 0 and
`is_encrypted_` at false. -/
def mediaSampleCtor (data : Option (List Nat)) (size : Nat)
    (side_data : Option (List Nat)) (side_data_size : Nat)
    (is_key_frame : Bool) : Option MediaSample :=
  match data with
  | none =>
    if size = 0 then
      some { dts := 0, pts := 0, duration := 0, is_key_frame := is_key_frame,
             is_encrypted := false, data := [],
             side_data :=
               match side_data with
               | none => []
               | some sd => sd.take side_data_size }
    else none
  | some bs =>
    some { dts := 0, pts := 0, duration := 0, is_key_frame := is_key_frame,
           is_encrypted := false, data := bs.take size,
           side_data :=
             match side_data with
             | none => []
             | some sd => sd.take side_data_size }

/-- Embedded from `media_sample.cc`,
`MediaSample::CopyFrom(data, data_size, is_key_frame)`: `CHECK(data)`
fail-fasts on a null pointer (modelled as `none`), otherwise constructs
the sample with no side data. -/
def mediaSampleCopyFrom (data : Option (List Nat)) (data_size : Nat)
    (is_key_frame : Bool) : Option MediaSample :=
  match data with
  | none => none
  | some bs => mediaSampleCtor (some bs) data_size none 0 is_key_frame

/-- The cue ("hi", 0, 1000) of the Gap scenario. -/
def hiCue : Cue := ⟨0, 1000, [], [], hiBytes⟩

/-- The cue ("hello", 2000, 1000) of the Gap scenario. -/
def helloCue : Cue := ⟨2000, 1000, [], [], helloBytes⟩

/-- The input of the Gap scenario (§8 scenario 2). -/
def gapCues : List Cue := [hiCue, helloCue]

/-- The cue ("hi", 1200, 2000) of the leading-gap scenario (§8
scenario 5). -/
def leadCue : Cue := ⟨1200, 2000, [], [], hiBytes⟩

/-- The cue ("hi", 0, 2000) of the same-start scenario (§8 scenario 6). -/
def ssCue1 : Cue := ⟨0, 2000, [], [], hiBytes⟩

/-- The cue ("hello", 0, 1500) of the same-start scenario. -/
def ssCue2 : Cue := ⟨0, 1500, [], [], helloBytes⟩

/-- A cue whose only populated string is the payload "some message"
(the serializer test vector of §4.1). -/
def someMsgCue : Cue := ⟨0, 0, [], [], someMessageBytes⟩

/-- Invariant tying a fragmenter state to the list `cs` of cues pushed so
far (`a` is the start of the timeline, i.e. the first cue's start):
the active set is exactly the pushed cues not yet expired at the cursor
(in arrival order), every pushed cue starts no later than the cursor, the
ready queue tiles `[a, cursor)` exactly, and every queued sample carries
the spec-mandated data. -/
def DInv (cs : List Cue) (a : Nat) (st : WebVttFragmenter) : Prop :=
  st.active = cs.filter (stillActive st.cursor) ∧
  (∀ c ∈ cs, c.start_time ≤ st.cursor) ∧
  ChainFrom a st.cursor st.ready ∧
  ∀ S ∈ st.ready, S.data = expectedData cs S.pts (S.pts + S.duration)

/-- Invariant of the fragmenter between public calls, as a function of
the list of cues pushed so far. -/
def FragInv (cs : List Cue) (st : WebVttFragmenter) : Prop :=
  if cs = [] then st = initFragmenter
  else st.started = true ∧ st.cursor = lastStart cs ∧
    DInv cs (firstStart cs) st

/-- Boolean check of the non-decreasing-starts precondition. -/
def chainLE : List Cue → Bool
  | [] => true
  | [_] => true
  | a :: b :: rest =>
    decide (a.start_time ≤ b.start_time) && chainLE (b :: rest)

instance (cs : List Cue) : Decidable (sortedStarts cs) :=
  decidable_of_iff (chainLE cs = true) (by
    induction cs with
    | nil => simp [chainLE, sortedStarts]
    | cons a rest ih =>
      cases rest with
      | nil => simp [chainLE, sortedStarts]
      | cons b rest' =>
        rw [chainLE, Bool.and_eq_true, decide_eq_true_eq, sortedStarts,
          List.chain'_cons]
        exact and_congr Iff.rfl ih)

/-- Boolean check of the positive-duration precondition. -/
def allPosDur : List Cue → Bool
  | [] => true
  | c :: rest => decide (0 < c.duration) && allPosDur rest

instance (cs : List Cue) : Decidable (posDur cs) :=
  decidable_of_iff (allPosDur cs = true) (by
    induction cs with
    | nil => simp [allPosDur, posDur]
    | cons c rest ih =>
      rw [allPosDur, Bool.and_eq_true, decide_eq_true_eq]
      rw [posDur] at ih ⊢
      constructor
      · rintro ⟨h1, h2⟩ x hx
        rcases List.mem_cons.mp hx with rfl | hx
        · exact h1
        · exact ih.mp h2 x hx
      · intro h
        exact ⟨h c (List.mem_cons_self c rest),
          ih.mpr fun x hx => h x (List.mem_cons_of_mem c hx)⟩)

/-! ### Helper lemmas about `ChainFrom` -/

theorem chainFrom_nil {a b : Nat} : ChainFrom a b [] ↔ a = b := Iff.rfl

theorem chainFrom_le {a b : Nat} :
    ∀ {l : List OutputSample}, ChainFrom a b l → a ≤ b := by
  intro l
  induction l generalizing a with
  | nil => intro h; exact Nat.le_of_eq h
  | cons s rest ih =>
    intro h
    exact le_trans (Nat.le_add_right a s.duration) (ih h.2.2)

theorem chainFrom_append_single {a b t : Nat} {d : List Nat}
    {l : List OutputSample} (h : ChainFrom a b l) (hbt : b < t) :
    ChainFrom a t (l ++ [⟨b, t - b, d⟩]) := by
  induction l generalizing a with
  | nil =>
    cases h
    exact ⟨rfl, Nat.sub_pos_of_lt hbt, by
      simpa [ChainFrom] using Nat.add_sub_cancel' (Nat.le_of_lt hbt)⟩
  | cons s rest ih =>
    exact ⟨h.1, h.2.1, ih h.2.2⟩

theorem chainFrom_mem {a b : Nat} :
    ∀ {l : List OutputSample}, ChainFrom a b l →
      ∀ S ∈ l, a ≤ S.pts ∧ S.pts + S.duration ≤ b ∧ 0 < S.duration := by
  intro l
  induction l generalizing a with
  | nil => intro _ S hS; cases hS
  | cons s rest ih =>
    intro h S hS
    obtain ⟨hpts, hdur, hrest⟩ := h
    have hle : a + s.duration ≤ b := chainFrom_le hrest
    rcases List.mem_cons.mp hS with rfl | hS
    · omega
    · have := ih hrest S hS
      omega

theorem chainFrom_chain' {a b : Nat} :
    ∀ {l : List OutputSample}, ChainFrom a b l →
      List.Chain' (fun S T => S.pts + S.duration = T.pts) l := by
  intro l
  induction l generalizing a with
  | nil => intro _; exact List.chain'_nil
  | cons s rest ih =>
    intro h
    obtain ⟨hpts, hdur, hrest⟩ := h
    cases rest with
    | nil => simp
    | cons t rest' =>
      refine List.Chain'.cons ?_ (ih hrest)
      have ht := hrest.1
      omega

/-! ### Helper lemmas about `earliestEnd`, `maxEnd`, eviction -/

theorem foldl_min_le_init (l : List Cue) (a : Nat) :
    l.foldl (fun m x => min m x.end_time) a ≤ a := by
  induction l generalizing a with
  | nil => exact Nat.le_refl a
  | cons c rest ih =>
    exact le_trans (ih (min a c.end_time)) (Nat.min_le_left _ _)

theorem foldl_min_le_mem (l : List Cue) {c : Cue} (hc : c ∈ l) :
    ∀ (a : Nat), l.foldl (fun m x => min m x.end_time) a ≤ c.end_time := by
  induction l with
  | nil => cases hc
  | cons d rest ih =>
    intro a
    rcases List.mem_cons.mp hc with rfl | hc
    · exact le_trans (foldl_min_le_init rest _) (Nat.min_le_right _ _)
    · exact ih hc _

theorem foldl_min_cases (l : List Cue) (a : Nat) :
    l.foldl (fun m x => min m x.end_time) a = a ∨
      ∃ c ∈ l, l.foldl (fun m x => min m x.end_time) a = c.end_time := by
  induction l generalizing a with
  | nil => exact Or.inl rfl
  | cons d rest ih =>
    rcases ih (min a d.end_time) with h | ⟨c, hc, h⟩
    · rcases Nat.le_total a d.end_time with hle | hle
      · left; simpa [List.foldl, Nat.min_eq_left hle] using h
      · right
        exact ⟨d, List.mem_cons_self d rest, by
          simpa [List.foldl, Nat.min_eq_right hle] using h⟩
    · exact Or.inr ⟨c, List.mem_cons_of_mem d hc, h⟩

theorem earliestEnd_le {active : List Cue} {c : Cue} (hc : c ∈ active) :
    earliestEnd active ≤ c.end_time := by
  cases active with
  | nil => cases hc
  | cons d rest =>
    rcases List.mem_cons.mp hc with rfl | hc
    · exact foldl_min_le_init rest c.end_time
    · exact foldl_min_le_mem rest hc d.end_time

theorem earliestEnd_mem :
    ∀ {active : List Cue}, active ≠ [] →
      ∃ c ∈ active, earliestEnd active = c.end_time
  | [], h => absurd rfl h
  | d :: rest, _ => by
    rcases foldl_min_cases rest d.end_time with h' | ⟨c, hc, h'⟩
    · exact ⟨d, List.mem_cons_self d rest, h'⟩
    · exact ⟨c, List.mem_cons_of_mem d hc, h'⟩

theorem le_maxEnd {cs : List Cue} {c : Cue} (hc : c ∈ cs) :
    c.end_time ≤ maxEnd cs := by
  have aux : ∀ (l : List Cue) (a : Nat), c ∈ l →
      c.end_time ≤ l.foldl (fun m x => max m x.end_time) a := by
    intro l
    induction l with
    | nil => intro a h; cases h
    | cons d rest ih =>
      intro a h
      rcases List.mem_cons.mp h with h | h
      · subst h
        have base : ∀ (l' : List Cue) (b : Nat),
            b ≤ l'.foldl (fun m x => max m x.end_time) b := by
          intro l'
          induction l' with
          | nil => intro b; exact Nat.le_refl b
          | cons e rest' ih' =>
            intro b
            exact le_trans (Nat.le_max_left b e.end_time) (ih' _)
        exact le_trans (Nat.le_max_right a c.end_time) (base rest _)
      · exact ih _ h
  exact aux cs 0 hc

theorem maxEnd_le {cs : List Cue} {M : Nat}
    (h : ∀ c ∈ cs, c.end_time ≤ M) : maxEnd cs ≤ M := by
  have aux : ∀ (l : List Cue) (a : Nat), a ≤ M →
      (∀ c ∈ l, c.end_time ≤ M) →
      l.foldl (fun m x => max m x.end_time) a ≤ M := by
    intro l
    induction l with
    | nil => intro a ha _; exact ha
    | cons d rest ih =>
      intro a ha hl
      exact ih _ (Nat.max_le.mpr ⟨ha, hl d (List.mem_cons_self d rest)⟩)
        fun c hc => hl c (List.mem_cons_of_mem d hc)
  exact aux cs 0 (Nat.zero_le M) h

theorem evict_earliest_length_lt {active : List Cue} (h : active ≠ []) :
    (evictCues (earliestEnd active) active).length < active.length := by
  obtain ⟨c, hc, hend⟩ := earliestEnd_mem h
  have : ¬ stillActive (earliestEnd active) c = true := by
    simp [stillActive, hend]
  calc (evictCues (earliestEnd active) active).length
      < active.length := by
        refine List.length_filter_lt_length_iff_exists.mpr ?_
        exact ⟨c, hc, this⟩

/-! ### The sweep-line invariant -/

theorem filter_congr_iff {p q : Cue → Bool} {cs : List Cue}
    (h : ∀ c ∈ cs, (p c = true ↔ q c = true)) :
    cs.filter p = cs.filter q :=
  List.filter_congr fun c hc => Bool.coe_iff_coe.mp (h c hc)

theorem drainStep_inv {cs : List Cue} {a : Nat} {st : WebVttFragmenter}
    (hI : DInv cs a st) (hne : st.active ≠ []) :
    DInv cs a (drainStep st) ∧
    (drainStep st).cursor = earliestEnd st.active ∧
    st.cursor < earliestEnd st.active ∧
    (drainStep st).active.length < st.active.length := by
  obtain ⟨hact, hstart, hchain, hdata⟩ := hI
  obtain ⟨c0, hc0, hc0e⟩ := earliestEnd_mem hne
  set E := earliestEnd st.active with hE
  have hcur_lt : st.cursor < E := by
    have hmem : c0 ∈ cs.filter (stillActive st.cursor) := hact ▸ hc0
    have := (List.mem_filter.mp hmem).2
    simp only [stillActive, decide_eq_true_eq] at this
    omega
  have hstep : drainStep st =
      { st with cursor := E,
                active := evictCues E st.active,
                ready := st.ready ++
                  [⟨st.cursor, E - st.cursor, activeData st.active⟩] } := by
    rw [drainStep]
    rw [← hE, if_pos hcur_lt]
  have hAC : activeCues cs st.cursor E = st.active := by
    conv_rhs => rw [hact]
    apply filter_congr_iff
    intro x hx
    simp only [stillActive, Bool.and_eq_true, decide_eq_true_eq]
    constructor
    · intro ⟨_, hx2⟩; omega
    · intro hx2
      refine ⟨hstart x hx, ?_⟩
      have hxa : x ∈ st.active := by
        rw [hact]
        exact List.mem_filter.mpr ⟨hx, by
          simp only [stillActive, decide_eq_true_eq]; omega⟩
      have h3 : earliestEnd st.active ≤ x.end_time := earliestEnd_le hxa
      omega
  have hactive' :
      evictCues E st.active = cs.filter (stillActive E) := by
    conv_lhs => rw [hact]
    rw [evictCues, List.filter_filter]
    apply filter_congr_iff
    intro x hx
    simp only [Bool.and_eq_true, stillActive, decide_eq_true_eq]
    constructor
    · intro ⟨h1, _⟩; exact h1
    · intro h1; exact ⟨h1, by omega⟩
  rw [hstep]
  refine ⟨⟨hactive', ?_, ?_, ?_⟩, rfl, hcur_lt, ?_⟩
  · exact fun c hc => le_trans (hstart c hc) (Nat.le_of_lt hcur_lt)
  · exact chainFrom_append_single hchain hcur_lt
  · intro S hS
    rcases List.mem_append.mp hS with hS | hS
    · exact hdata S hS
    · have hSeq : S = ⟨st.cursor, E - st.cursor, activeData st.active⟩ := by
        simpa using hS
      subst hSeq
      show activeData st.active
        = expectedData cs st.cursor (st.cursor + (E - st.cursor))
      have harith : st.cursor + (E - st.cursor) = E := by omega
      rw [harith]
      simp only [expectedData, hAC, if_neg hne, activeData]
  · exact evict_earliest_length_lt hne

theorem drainAux_spec (target : Option Nat) (cs : List Cue) (a : Nat) :
    ∀ (fuel : Nat) (st : WebVttFragmenter),
      st.active.length ≤ fuel → DInv cs a st →
      (∀ t, target = some t → st.cursor ≤ t) →
      DInv cs a (drainAux target fuel st) ∧
      st.cursor ≤ (drainAux target fuel st).cursor ∧
      ((drainAux target fuel st).active = [] ∨
        withinTarget target (earliestEnd (drainAux target fuel st).active)
          = false) ∧
      (∀ t, target = some t → (drainAux target fuel st).cursor ≤ t) ∧
      ((drainAux target fuel st).cursor ≠ st.cursor →
        ∃ c ∈ cs, (drainAux target fuel st).cursor = c.end_time) := by
  intro fuel
  induction fuel with
  | zero =>
    intro st hlen hI htar
    have hemp : st.active = [] := List.length_eq_zero.mp (Nat.le_zero.mp hlen)
    simp only [drainAux]
    exact ⟨hI, Nat.le_refl _, Or.inl hemp, htar, fun h => absurd rfl h⟩
  | succ fuel ih =>
    intro st hlen hI htar
    by_cases hemp : st.active = []
    · have hred : drainAux target (fuel + 1) st = st := by
        simp [drainAux, hemp]
      rw [hred]
      exact ⟨hI, Nat.le_refl _, Or.inl hemp, htar, fun h => absurd rfl h⟩
    · by_cases hwt : withinTarget target (earliestEnd st.active) = true
      · obtain ⟨hI1, hcur1, hlt1, hlen1⟩ := drainStep_inv hI hemp
        have hlen' : (drainStep st).active.length ≤ fuel := by omega
        have htar1 : ∀ t, target = some t → (drainStep st).cursor ≤ t := by
          intro t ht
          subst ht
          simp only [withinTarget, decide_eq_true_eq] at hwt
          omega
        have hrec := ih (drainStep st) hlen' hI1 htar1
        have hred : drainAux target (fuel + 1) st =
            drainAux target fuel (drainStep st) := by
          simp [drainAux, hemp, hwt]
        rw [hred]
        refine ⟨hrec.1, ?_, hrec.2.2.1, hrec.2.2.2.1, ?_⟩
        · exact le_trans (le_of_lt (hcur1 ▸ hlt1)) hrec.2.1
        · intro hchg
          by_cases h2 : (drainAux target fuel (drainStep st)).cursor
              = (drainStep st).cursor
          · rw [h2, hcur1]
            obtain ⟨c, hc, hce⟩ := earliestEnd_mem hemp
            have hccs : c ∈ cs := by
              have hmem : c ∈ cs.filter (stillActive st.cursor) := hI.1 ▸ hc
              exact (List.mem_filter.mp hmem).1
            exact ⟨c, hccs, hce⟩
          · exact hrec.2.2.2.2 h2
      · have hred : drainAux target (fuel + 1) st = st := by
          simp [drainAux, hemp, hwt]
        rw [hred]
        refine ⟨hI, Nat.le_refl _, Or.inr ?_, htar, fun h => absurd rfl h⟩
        simpa using hwt

theorem drainLoop_spec {cs : List Cue} {a : Nat} {st : WebVttFragmenter}
    (target : Option Nat) (hI : DInv cs a st)
    (htar : ∀ t, target = some t → st.cursor ≤ t) :
    DInv cs a (drainLoop st target) ∧
    st.cursor ≤ (drainLoop st target).cursor ∧
    ((drainLoop st target).active = [] ∨
      withinTarget target (earliestEnd (drainLoop st target).active)
        = false) ∧
    (∀ t, target = some t → (drainLoop st target).cursor ≤ t) ∧
    ((drainLoop st target).cursor ≠ st.cursor →
      ∃ c ∈ cs, (drainLoop st target).cursor = c.end_time) :=
  drainAux_spec target cs a st.active.length st (Nat.le_refl _) hI htar

theorem advanceTo_spec {cs : List Cue} {a : Nat} {st : WebVttFragmenter}
    {t : Nat} (hI : DInv cs a st) (hct : st.cursor ≤ t) :
    DInv cs a (advanceTo st t) ∧ (advanceTo st t).cursor = t := by
  obtain ⟨hI1, hmono, hexit, htle, _⟩ :=
    @drainLoop_spec cs a st (some t) hI
      (by intro u hu; cases hu; exact hct)
  set st1 := drainLoop st (some t) with hst1
  obtain ⟨hact1, hstart1, hchain1, hdata1⟩ := hI1
  have hc1t : st1.cursor ≤ t := htle t rfl
  by_cases hlt : st1.cursor < t
  · by_cases hA : st1.active = []
    · have hred : advanceTo st t =
          { st1 with cursor := t,
                     ready := st1.ready ++
                       [⟨st1.cursor, t - st1.cursor,
                         serializeVTTEmptyCueBox⟩] } := by
        rw [advanceTo, ← hst1, if_pos hlt, if_pos hA]
      rw [hred]
      have hnil : ∀ c ∈ cs, ¬ stillActive st1.cursor c = true := by
        intro c hc hcstill
        have : c ∈ cs.filter (stillActive st1.cursor) :=
          List.mem_filter.mpr ⟨hc, hcstill⟩
        rw [← hact1, hA] at this
        cases this
      refine ⟨⟨?_, ?_, ?_, ?_⟩, rfl⟩
      · rw [hA]
        symm
        rw [List.filter_eq_nil_iff]
        intro c hc
        have h1 := hnil c hc
        simp only [stillActive, decide_eq_true_eq] at h1 ⊢
        omega
      · exact fun c hc => le_trans (hstart1 c hc) hc1t
      · exact chainFrom_append_single hchain1 hlt
      · intro S hS
        rcases List.mem_append.mp hS with hS | hS
        · exact hdata1 S hS
        · have hSeq : S = ⟨st1.cursor, t - st1.cursor,
              serializeVTTEmptyCueBox⟩ := by simpa using hS
          subst hSeq
          show serializeVTTEmptyCueBox
            = expectedData cs st1.cursor (st1.cursor + (t - st1.cursor))
          have harith : st1.cursor + (t - st1.cursor) = t := by omega
          rw [harith]
          have hsel : activeCues cs st1.cursor t = [] := by
            rw [activeCues, List.filter_eq_nil_iff]
            intro c hc
            have h1 := hnil c hc
            simp only [stillActive, decide_eq_true_eq] at h1
            simp only [Bool.and_eq_true, decide_eq_true_eq, not_and]
            intro _
            omega
          rw [expectedData, if_pos hsel]
    · have hEgt : t < earliestEnd st1.active := by
        rcases hexit with h | h
        · exact absurd h hA
        · simp only [withinTarget, decide_eq_false_iff_not] at h
          omega
      have hred : advanceTo st t =
          { st1 with cursor := t,
                     ready := st1.ready ++
                       [⟨st1.cursor, t - st1.cursor,
                         activeData st1.active⟩] } := by
        rw [advanceTo, ← hst1, if_pos hlt, if_neg hA]
      rw [hred]
      have hactT : cs.filter (stillActive t) = st1.active := by
        conv_rhs => rw [hact1]
        apply filter_congr_iff
        intro x hx
        simp only [stillActive, decide_eq_true_eq]
        constructor
        · intro h1; omega
        · intro h1
          have hxa : x ∈ st1.active := by
            rw [hact1]
            exact List.mem_filter.mpr ⟨hx, by
              simp only [stillActive, decide_eq_true_eq]; omega⟩
          have h3 := earliestEnd_le hxa
          omega
      have hAC : activeCues cs st1.cursor t = st1.active := by
        conv_rhs => rw [hact1]
        apply filter_congr_iff
        intro x hx
        simp only [stillActive, Bool.and_eq_true, decide_eq_true_eq]
        constructor
        · intro ⟨_, h2⟩; omega
        · intro h1
          refine ⟨hstart1 x hx, ?_⟩
          have hxa : x ∈ st1.active := by
            rw [hact1]
            exact List.mem_filter.mpr ⟨hx, by
              simp only [stillActive, decide_eq_true_eq]; omega⟩
          have h3 := earliestEnd_le hxa
          omega
      refine ⟨⟨hactT.symm, ?_, ?_, ?_⟩, rfl⟩
      · exact fun c hc => le_trans (hstart1 c hc) hc1t
      · exact chainFrom_append_single hchain1 hlt
      · intro S hS
        rcases List.mem_append.mp hS with hS | hS
        · exact hdata1 S hS
        · have hSeq : S = ⟨st1.cursor, t - st1.cursor,
              activeData st1.active⟩ := by simpa using hS
          subst hSeq
          show activeData st1.active
            = expectedData cs st1.cursor (st1.cursor + (t - st1.cursor))
          have harith : st1.cursor + (t - st1.cursor) = t := by omega
          rw [harith]
          simp only [expectedData, hAC, if_neg hA, activeData]
  · have hteq : st1.cursor = t := by omega
    have hred : advanceTo st t = st1 := by
      rw [advanceTo, ← hst1, if_neg hlt]
    rw [hred]
    exact ⟨⟨hact1, hstart1, hchain1, hdata1⟩, hteq⟩

theorem drainStep_started {st : WebVttFragmenter} :
    (drainStep st).started = st.started := by
  rw [drainStep]
  split <;> rfl

theorem drainAux_started (target : Option Nat) :
    ∀ (fuel : Nat) (st : WebVttFragmenter),
      (drainAux target fuel st).started = st.started := by
  intro fuel
  induction fuel with
  | zero => intro st; rfl
  | succ fuel ih =>
    intro st
    rw [drainAux]
    split
    · rfl
    · split
      · rw [ih, drainStep_started]
      · rfl

theorem advanceTo_started {st : WebVttFragmenter} {t : Nat} :
    (advanceTo st t).started = st.started := by
  rw [advanceTo]
  have h1 : (drainLoop st (some t)).started = st.started :=
    drainAux_started (some t) st.active.length st
  split
  · split <;> exact h1
  · exact h1

theorem firstStart_append {cs : List Cue} (c : Cue) (h : cs ≠ []) :
    firstStart (cs ++ [c]) = firstStart cs := by
  cases cs with
  | nil => exact absurd rfl h
  | cons c0 rest => rfl

theorem firstStart_cons (c0 : Cue) (rest : List Cue) :
    firstStart (c0 :: rest) = c0.start_time := rfl

theorem expectedData_append {cs : List Cue} {c : Cue} {a b : Nat}
    (hab : a < b) (hbc : b ≤ c.start_time) :
    expectedData (cs ++ [c]) a b = expectedData cs a b := by
  have hac : activeCues (cs ++ [c]) a b = activeCues cs a b := by
    rw [activeCues, activeCues, List.filter_append]
    have hc1 : [c].filter
        (fun x => decide (x.start_time ≤ a) && decide (b ≤ x.end_time))
          = [] := by
      simp only [List.filter_eq_nil_iff, List.mem_singleton,
        Bool.and_eq_true, decide_eq_true_eq, not_and]
      intro x hx h1
      subst hx
      omega
    rw [hc1, List.append_nil]
  rw [expectedData, expectedData, hac]

theorem pushSample_inv_nil {c : Cue} (hd : 0 < c.duration) :
    FragInv [c] (pushSample initFragmenter c) := by
  have hred : pushSample initFragmenter c =
      { started := true, cursor := c.start_time, active := [c],
        ready := [] } := by
    rw [pushSample]
    rfl
  rw [FragInv, if_neg (List.cons_ne_nil c []), hred]
  refine ⟨rfl, rfl, ?_, ?_, rfl, ?_⟩
  · have : stillActive c.start_time c = true := by
      simp only [stillActive, Cue.end_time, decide_eq_true_eq]
      omega
    simp [this]
  · intro x hx
    rcases List.mem_singleton.mp hx with rfl
    exact Nat.le_refl _
  · intro S hS
    cases hS

theorem pushSample_inv {cs : List Cue} {st : WebVttFragmenter} {c : Cue}
    (hcs : cs ≠ []) (hI : FragInv cs st) (hd : 0 < c.duration)
    (hle : lastStart cs ≤ c.start_time) :
    FragInv (cs ++ [c]) (pushSample st c) := by
  rw [FragInv, if_neg hcs] at hI
  obtain ⟨hstarted, hcur, hDI⟩ := hI
  rw [FragInv, if_neg (by simp : ¬ cs ++ [c] = [])]
  rw [firstStart_append c hcs]
  have hnotfresh : ¬ st.started = false := by rw [hstarted]; simp
  have hlast' : lastStart (cs ++ [c]) = c.start_time := by
    rw [lastStart, List.getLast?_concat]
    rfl
  by_cases hadv : st.cursor < c.start_time
  · have hred : pushSample st c =
        { advanceTo st c.start_time with
            active := (advanceTo st c.start_time).active ++ [c] } := by
      rw [pushSample, if_neg hnotfresh, if_pos hadv]
    obtain ⟨hDI1, hcur1⟩ := advanceTo_spec hDI (Nat.le_of_lt hadv)
    obtain ⟨hact1, hstart1, hchain1, hdata1⟩ := hDI1
    rw [hred]
    refine ⟨?_, ?_, ?_, ?_, ?_, ?_⟩
    · rw [advanceTo_started, hstarted]
    · rw [hlast']
      exact hcur1
    · show (advanceTo st c.start_time).active ++ [c]
        = (cs ++ [c]).filter
            (stillActive (advanceTo st c.start_time).cursor)
      rw [List.filter_append, ← hact1, hcur1]
      have : [c].filter (stillActive c.start_time) = [c] := by
        simp only [List.filter_eq_self, List.mem_singleton, stillActive,
          Cue.end_time, decide_eq_true_eq]
        intro x hx
        subst hx
        omega
      rw [this]
    · intro x hx
      rcases List.mem_append.mp hx with hx | hx
      · exact hstart1 x hx
      · rcases List.mem_singleton.mp hx with rfl
        exact Nat.le_of_eq hcur1.symm
    · exact hchain1
    · intro S hS
      have hmem := chainFrom_mem hchain1 S hS
      have hstab : expectedData (cs ++ [c]) S.pts
          (S.pts + S.duration) = expectedData cs S.pts
          (S.pts + S.duration) := by
        apply expectedData_append
        · omega
        · rw [hcur1] at hmem
          omega
      rw [hstab]
      exact hdata1 S hS
  · have hceq : st.cursor = c.start_time := by
      rw [hcur] at hadv ⊢
      omega
    have hred : pushSample st c = { st with active := st.active ++ [c] } := by
      rw [pushSample, if_neg hnotfresh, if_neg hadv]
    obtain ⟨hact1, hstart1, hchain1, hdata1⟩ := hDI
    rw [hred]
    refine ⟨hstarted, ?_, ?_, ?_, ?_, ?_⟩
    · rw [hlast']
      exact hceq
    · show st.active ++ [c]
        = (cs ++ [c]).filter (stillActive st.cursor)
      rw [List.filter_append, ← hact1]
      have : [c].filter (stillActive st.cursor) = [c] := by
        simp only [List.filter_eq_self, List.mem_singleton, stillActive,
          Cue.end_time, decide_eq_true_eq]
        intro x hx
        subst hx
        omega
      rw [this]
    · intro x hx
      rcases List.mem_append.mp hx with hx | hx
      · exact hstart1 x hx
      · rcases List.mem_singleton.mp hx with rfl
        exact Nat.le_of_eq hceq.symm
    · exact hchain1
    · intro S hS
      have hmem := chainFrom_mem hchain1 S hS
      have hstab : expectedData (cs ++ [c]) S.pts
          (S.pts + S.duration) = expectedData cs S.pts
          (S.pts + S.duration) := by
        apply expectedData_append
        · omega
        · omega
      rw [hstab]
      exact hdata1 S hS

theorem pushAll_inv (cs : List Cue) (hs : sortedStarts cs)
    (hd : posDur cs) : FragInv cs (pushAll cs) := by
  induction cs using List.reverseRecOn with
  | nil => rfl
  | append_singleton cs c ih =>
    have hpA : pushAll (cs ++ [c]) = pushSample (pushAll cs) c := by
      rw [pushAll, List.foldl_append]
      rfl
    rw [hpA]
    have hs' : sortedStarts cs := (List.chain'_append.mp hs).1
    have hd' : posDur cs := fun x hx => hd x (List.mem_append_left _ hx)
    have hdc : 0 < c.duration :=
      hd c (List.mem_append_right _ (List.mem_singleton_self c))
    by_cases hcs : cs = []
    · subst hcs
      exact pushSample_inv_nil hdc
    · refine pushSample_inv hcs (ih hs' hd') hdc ?_
      have hlastR := (List.chain'_append.mp hs).2.2
      have hsome : cs.getLast? = some (cs.getLast hcs) :=
        List.getLast?_eq_getLast cs hcs
      have := hlastR (cs.getLast hcs) (by rw [hsome]; rfl) c rfl
      rw [lastStart, hsome]
      exact this

theorem runPushes_master {c0 : Cue} {rest : List Cue}
    (hs : sortedStarts (c0 :: rest)) (hd : posDur (c0 :: rest)) :
    DInv (c0 :: rest) c0.start_time (runPushes (c0 :: rest)) ∧
    (runPushes (c0 :: rest)).active = [] ∧
    (runPushes (c0 :: rest)).cursor = maxEnd (c0 :: rest) := by
  have hinv := pushAll_inv (c0 :: rest) hs hd
  rw [FragInv, if_neg (List.cons_ne_nil _ _), firstStart_cons] at hinv
  obtain ⟨hstarted, hcur, hDI⟩ := hinv
  have hrp : runPushes (c0 :: rest)
      = drainLoop (pushAll (c0 :: rest)) none := rfl
  obtain ⟨hI', hmono, hexit, _, hwit⟩ :=
    @drainLoop_spec (c0 :: rest) c0.start_time
      (pushAll (c0 :: rest)) none hDI (by intro t ht; cases ht)
  rw [← hrp] at hI' hmono hexit hwit
  have hact' : (runPushes (c0 :: rest)).active = [] := by
    rcases hexit with h | h
    · exact h
    · simp [withinTarget] at h
  have hne : (pushAll (c0 :: rest)).active ≠ [] := by
    have hlmem : (c0 :: rest).getLast (by simp) ∈ (c0 :: rest) :=
      List.getLast_mem _
    have hlstart :
        ((c0 :: rest).getLast (by simp)).start_time
          = (pushAll (c0 :: rest)).cursor := by
      rw [hcur, lastStart, List.getLast?_eq_getLast _ (by simp)]
      rfl
    have hmem : (c0 :: rest).getLast (by simp)
        ∈ (pushAll (c0 :: rest)).active := by
      rw [hDI.1]
      refine List.mem_filter.mpr ⟨hlmem, ?_⟩
      have hdl := hd _ hlmem
      simp only [stillActive, Cue.end_time, decide_eq_true_eq]
      omega
    exact List.ne_nil_of_mem hmem
  have hchg : (runPushes (c0 :: rest)).cursor
      ≠ (pushAll (c0 :: rest)).cursor := by
    intro heq
    have : (runPushes (c0 :: rest)).active
        = (pushAll (c0 :: rest)).active := by
      rw [hI'.1, heq, ← hDI.1]
    rw [hact'] at this
    exact hne this.symm
  obtain ⟨cw, hcw, hcwe⟩ := hwit hchg
  have hub : ∀ c ∈ (c0 :: rest), c.end_time
      ≤ (runPushes (c0 :: rest)).cursor := by
    intro c hc
    by_contra hlt
    have hmem : c ∈ (runPushes (c0 :: rest)).active := by
      rw [hI'.1]
      refine List.mem_filter.mpr ⟨hc, ?_⟩
      simp only [stillActive, decide_eq_true_eq]
      omega
    rw [hact'] at hmem
    cases hmem
  refine ⟨hI', hact', le_antisymm ?_ (maxEnd_le hub)⟩
  rw [hcwe]
  exact le_maxEnd hcw

/-! ### FIFO pop, arrival indices, parser round-trip -/

theorem popAllAux_eq :
    ∀ (fuel : Nat) (st : WebVttFragmenter), st.ready.length ≤ fuel →
      popAllAux fuel st = st.ready := by
  intro fuel
  induction fuel with
  | zero =>
    intro st hlen
    have : st.ready = [] := List.length_eq_zero.mp (Nat.le_zero.mp hlen)
    rw [popAllAux, this]
  | succ fuel ih =>
    intro st hlen
    cases h : st.ready with
    | nil =>
      rw [popAllAux, popSample, h]
    | cons s rest =>
      rw [popAllAux, popSample, h]
      simp only
      rw [ih { st with ready := rest } (by rw [h] at hlen; simpa using hlen)]

theorem popAll_eq (st : WebVttFragmenter) : popAll st = st.ready :=
  popAllAux_eq st.ready.length st (Nat.le_refl _)

theorem enumFrom_filter_map_snd (p : Cue → Bool) :
    ∀ (l : List Cue) (n : Nat),
      ((l.enumFrom n).filter (fun q => p q.2)).map Prod.snd = l.filter p := by
  intro l
  induction l with
  | nil => intro n; rfl
  | cons c rest ih =>
    intro n
    rw [List.enumFrom_cons]
    by_cases hp : p c = true
    · rw [List.filter_cons_of_pos (by simpa using hp),
        List.filter_cons_of_pos hp, List.map_cons, ih]
    · rw [List.filter_cons_of_neg (by simpa using hp),
        List.filter_cons_of_neg hp, ih]

theorem fst_le_of_mem_enumFrom :
    ∀ (l : List Cue) (n : Nat) (q : Nat × Cue), q ∈ l.enumFrom n → n ≤ q.1 := by
  intro l
  induction l with
  | nil => intro n q hq; cases hq
  | cons c rest ih =>
    intro n q hq
    rw [List.enumFrom_cons] at hq
    rcases List.mem_cons.mp hq with rfl | hq
    · exact Nat.le_refl n
    · exact le_trans (Nat.le_succ n) (ih (n + 1) q hq)

theorem pairwise_fst_lt_enumFrom :
    ∀ (l : List Cue) (n : Nat),
      List.Pairwise (fun p q => p.1 < q.1) (l.enumFrom n) := by
  intro l
  induction l with
  | nil => intro n; exact List.Pairwise.nil
  | cons c rest ih =>
    intro n
    rw [List.enumFrom_cons]
    refine List.Pairwise.cons ?_ (ih (n + 1))
    intro q hq
    have := fst_le_of_mem_enumFrom rest (n + 1) q hq
    omega

theorem activeIdx_map_snd (cs : List Cue) (a b : Nat) :
    (activeIdx cs a b).map Prod.snd = activeCues cs a b := by
  rw [activeIdx, activeCues, List.enum]
  exact enumFrom_filter_map_snd
    (fun c => decide (c.start_time ≤ a) && decide (b ≤ c.end_time)) cs 0

theorem activeIdx_pairwise (cs : List Cue) (a b : Nat) :
    List.Pairwise (fun i j => i < j) ((activeIdx cs a b).map Prod.fst) := by
  rw [List.pairwise_map]
  exact (pairwise_fst_lt_enumFrom cs 0).sublist (List.filter_sublist _)

theorem readBE32_be32 (n : Nat) (rest : List Nat) (h : n < 2 ^ 32) :
    readBE32 (be32 n ++ rest) = some n := by
  rw [be32]
  show readBE32 (_ :: _ :: _ :: _ :: rest) = some n
  rw [readBE32]
  congr 1
  omega

theorem boxBytes_length {tag : List Nat} (content : List Nat)
    (htag : tag.length = 4) :
    (boxBytes tag content).length = 8 + content.length := by
  rw [boxBytes]
  simp [be32, htag]
  omega

theorem parseBoxesAux_nil (fuel : Nat) : parseBoxesAux fuel [] = [] := by
  cases fuel with
  | zero => rfl
  | succ fuel => rfl

theorem parseBoxesAux_congr :
    ∀ (fuel₁ fuel₂ : Nat) (bytes : List Nat),
      bytes.length ≤ fuel₁ → bytes.length ≤ fuel₂ →
      parseBoxesAux fuel₁ bytes = parseBoxesAux fuel₂ bytes := by
  intro fuel₁
  induction fuel₁ with
  | zero =>
    intro fuel₂ bytes h1 _
    have : bytes = [] := List.length_eq_zero.mp (Nat.le_zero.mp h1)
    rw [this, parseBoxesAux_nil, parseBoxesAux_nil]
  | succ fuel₁ ih =>
    intro fuel₂ bytes h1 h2
    cases fuel₂ with
    | zero =>
      have : bytes = [] := List.length_eq_zero.mp (Nat.le_zero.mp h2)
      rw [this, parseBoxesAux_nil, parseBoxesAux_nil]
    | succ fuel₂ =>
      cases hr : readBE32 bytes with
      | none => simp only [parseBoxesAux, hr]
      | some n =>
        simp only [parseBoxesAux, hr]
        by_cases hc : 8 ≤ n ∧ n ≤ bytes.length
        · rw [if_pos hc, if_pos hc]
          congr 1
          have hdl : (bytes.drop n).length = bytes.length - n := by
            simp
          exact ih fuel₂ (bytes.drop n) (by omega) (by omega)
        · rw [if_neg hc, if_neg hc]

theorem parseBoxesAux_step (tag content rest : List Nat)
    (htag : tag.length = 4) (hn : 8 + content.length < 2 ^ 32)
    (fuel : Nat) (hfuel : (boxBytes tag content ++ rest).length ≤ fuel) :
    parseBoxesAux fuel (boxBytes tag content ++ rest)
      = (tag, content) :: parseBoxes rest := by
  have hblen : (boxBytes tag content).length = 8 + content.length :=
    boxBytes_length content htag
  obtain ⟨fuel', rfl⟩ : ∃ f, fuel = f + 1 := by
    cases fuel with
    | zero =>
      rw [List.length_append, hblen] at hfuel
      omega
    | succ f => exact ⟨f, rfl⟩
  have hbytes : boxBytes tag content ++ rest
      = be32 (8 + content.length) ++ (tag ++ (content ++ rest)) := by
    rw [boxBytes]
    simp
  rw [hbytes]
  simp only [parseBoxesAux, readBE32_be32 _ _ hn]
  have hlen4 : (be32 (8 + content.length)).length = 4 := rfl
  have hlentot : (be32 (8 + content.length)
      ++ (tag ++ (content ++ rest))).length
      = 8 + content.length + rest.length := by
    simp [htag, be32]
    omega
  rw [if_pos (by rw [hlentot]; omega)]
  have hdrop4 : (be32 (8 + content.length)
      ++ (tag ++ (content ++ rest))).drop 4 = tag ++ (content ++ rest) :=
    List.drop_left' hlen4
  have htake4 : (tag ++ (content ++ rest)).take 4 = tag :=
    List.take_left' htag
  have hdrop8 : (be32 (8 + content.length)
      ++ (tag ++ (content ++ rest))).drop 8 = content ++ rest := by
    have : be32 (8 + content.length) ++ (tag ++ (content ++ rest))
        = (be32 (8 + content.length) ++ tag) ++ (content ++ rest) := by
      simp
    rw [this]
    exact List.drop_left' (by simp [htag, be32])
  have htakeC : (content ++ rest).take (8 + content.length - 8) = content := by
    have h8 : 8 + content.length - 8 = content.length := by omega
    rw [h8]
    exact List.take_left content rest
  have hdropN : (be32 (8 + content.length)
      ++ (tag ++ (content ++ rest))).drop (8 + content.length) = rest := by
    have : be32 (8 + content.length) ++ (tag ++ (content ++ rest))
        = (be32 (8 + content.length) ++ tag ++ content) ++ rest := by
      simp
    rw [this]
    exact List.drop_left' (by simp [htag, be32]; omega)
  rw [hdrop4, htake4, hdrop8, htakeC, hdropN]
  congr 1
  apply parseBoxesAux_congr
  · rw [hbytes, hlentot] at hfuel
    omega
  · exact Nat.le_refl _

theorem parseBoxes_flatten (ps : List (List Nat × List Nat))
    (h : ∀ p ∈ ps, p.1.length = 4 ∧ 8 + p.2.length < 2 ^ 32) :
    parseBoxes ((ps.map (fun p => boxBytes p.1 p.2)).flatten) = ps := by
  induction ps with
  | nil => rfl
  | cons p ps' ih =>
    obtain ⟨htag, hn⟩ := h p (List.mem_cons_self p ps')
    rw [List.map_cons, List.flatten_cons, parseBoxes]
    rw [parseBoxesAux_step p.1 p.2 _ htag hn _ (Nat.le_refl _)]
    rw [ih fun q hq => h q (List.mem_cons_of_mem p hq)]

/-! ### Sub-box presence -/

theorem tag_of_mem_cuePairs {c : Cue} {t s : List Nat}
    (h : (t, s) ∈ cuePairs c) :
    (t = idenTag ∧ s = c.cue_id ∧ c.cue_id ≠ []) ∨
    (t = sttgTag ∧ s = c.settings ∧ c.settings ≠ []) ∨
    (t = paylTag ∧ s = c.cue_text ∧ c.cue_text ≠ []) := by
  rw [cuePairs] at h
  rcases List.mem_append.mp h with h | h
  · rcases List.mem_append.mp h with h | h
    · left
      split at h
      · cases h
      · have h' := List.mem_singleton.mp h
        rw [Prod.ext_iff] at h'
        exact ⟨h'.1, h'.2, by assumption⟩
    · right; left
      split at h
      · cases h
      · have h' := List.mem_singleton.mp h
        rw [Prod.ext_iff] at h'
        exact ⟨h'.1, h'.2, by assumption⟩
  · right; right
    split at h
    · cases h
    · have h' := List.mem_singleton.mp h
      rw [Prod.ext_iff] at h'
      exact ⟨h'.1, h'.2, by assumption⟩

theorem parseBoxes_cuePayload (c : Cue) (h : smallCue c) :
    parseBoxes (cuePayload c) = cuePairs c := by
  rw [cuePayload]
  apply parseBoxes_flatten
  intro p hp
  obtain ⟨t, s⟩ := p
  rcases tag_of_mem_cuePairs hp with ⟨h1, h2, _⟩ | ⟨h1, h2, _⟩ | ⟨h1, h2, _⟩
  · subst h1; subst h2
    exact ⟨rfl, h.1⟩
  · subst h1; subst h2
    exact ⟨rfl, h.2.1⟩
  · subst h1; subst h2
    exact ⟨rfl, h.2.2⟩

theorem cuePairs_iden_iff (c : Cue) :
    (∃ s, (idenTag, s) ∈ cuePairs c) ↔ c.cue_id ≠ [] := by
  constructor
  · rintro ⟨s, hs⟩
    rcases tag_of_mem_cuePairs hs with ⟨_, _, h3⟩ | ⟨h1, _, _⟩ | ⟨h1, _, _⟩
    · exact h3
    · exact absurd h1 (by decide)
    · exact absurd h1 (by decide)
  · intro hne
    refine ⟨c.cue_id, ?_⟩
    rw [cuePairs]
    refine List.mem_append_left _ (List.mem_append_left _ ?_)
    rw [if_neg hne]
    exact List.mem_singleton_self _

theorem cuePairs_sttg_iff (c : Cue) :
    (∃ s, (sttgTag, s) ∈ cuePairs c) ↔ c.settings ≠ [] := by
  constructor
  · rintro ⟨s, hs⟩
    rcases tag_of_mem_cuePairs hs with ⟨h1, _, _⟩ | ⟨_, _, h3⟩ | ⟨h1, _, _⟩
    · exact absurd h1 (by decide)
    · exact h3
    · exact absurd h1 (by decide)
  · intro hne
    refine ⟨c.settings, ?_⟩
    rw [cuePairs]
    refine List.mem_append_left _ (List.mem_append_right _ ?_)
    rw [if_neg hne]
    exact List.mem_singleton_self _

theorem cuePairs_payl_iff (c : Cue) :
    (∃ s, (paylTag, s) ∈ cuePairs c) ↔ c.cue_text ≠ [] := by
  constructor
  · rintro ⟨s, hs⟩
    rcases tag_of_mem_cuePairs hs with ⟨h1, _, _⟩ | ⟨h1, _, _⟩ | ⟨_, _, h3⟩
    · exact absurd h1 (by decide)
    · exact absurd h1 (by decide)
    · exact h3
  · intro hne
    refine ⟨c.cue_text, ?_⟩
    rw [cuePairs]
    refine List.mem_append_right _ ?_
    rw [if_neg hne]
    exact List.mem_singleton_self _

/-! ### The claims -/

/-- C1: for every admissible run of pushes (non-decreasing start times,
positive durations) followed by flush, every emitted output sample
covering `[a, b)` has data equal to the concatenation, in arrival order,
of the serialized `VTTCueBox` of exactly the cues with
`start_time ≤ a` and `end_time ≥ b`; when no cue qualifies, the data is
a single serialized `VTTEmptyCueBox`. -/
theorem webvtt_active_set_correctness (cs : List Cue)
    (hs : sortedStarts cs) (hd : posDur cs) (S : OutputSample)
    (hS : S ∈ (runPushes cs).ready) :
    (activeCues cs S.pts (S.pts + S.duration) ≠ [] →
      S.data = ((activeCues cs S.pts (S.pts + S.duration)).map
        serializeVTTCueBox).flatten) ∧
    (activeCues cs S.pts (S.pts + S.duration) = [] →
      S.data = serializeVTTEmptyCueBox) := by
  cases cs with
  | nil => exact absurd hS (List.not_mem_nil S)
  | cons c0 rest =>
    obtain ⟨hI', -, -⟩ := runPushes_master hs hd
    have hdata := hI'.2.2.2 S hS
    constructor
    · intro hne
      rw [hdata, expectedData, if_neg hne]
    · intro hemp
      rw [hdata, expectedData, if_pos hemp]

theorem webvtt_active_set_correctness_witness :
    (activeCues gapCues 1000 (1000 + 1000) ≠ [] →
      (⟨1000, 1000, serializeVTTEmptyCueBox⟩ : OutputSample).data
        = ((activeCues gapCues 1000 (1000 + 1000)).map
          serializeVTTCueBox).flatten) ∧
    (activeCues gapCues 1000 (1000 + 1000) = [] →
      (⟨1000, 1000, serializeVTTEmptyCueBox⟩ : OutputSample).data
        = serializeVTTEmptyCueBox) :=
  webvtt_active_set_correctness gapCues (by decide) (by decide)
    ⟨1000, 1000, serializeVTTEmptyCueBox⟩ (by decide)

/-- C2: for every admissible run of pushes followed by flush, the
emitted samples partition `[first cue start, maximum cue end)`:
successive samples are contiguous (`S.pts + S.duration = T.pts`), every
duration is positive, and the tiling starts at the first cue's start and
ends at the maximum cue end. -/
theorem webvtt_partition (cs : List Cue) (hcs : cs ≠ [])
    (hs : sortedStarts cs) (hd : posDur cs) :
    List.Chain' (fun S T => S.pts + S.duration = T.pts)
      (runPushes cs).ready ∧
    (∀ S ∈ (runPushes cs).ready, 0 < S.duration) ∧
    ChainFrom (firstStart cs) (maxEnd cs) (runPushes cs).ready := by
  cases cs with
  | nil => exact absurd rfl hcs
  | cons c0 rest =>
    obtain ⟨hI', -, hcur⟩ := runPushes_master hs hd
    have hchain := hI'.2.2.1
    rw [hcur] at hchain
    exact ⟨chainFrom_chain' hchain,
      fun S hS => (chainFrom_mem hchain S hS).2.2, hchain⟩

theorem webvtt_partition_witness :
    List.Chain' (fun S T => S.pts + S.duration = T.pts)
      (runPushes gapCues).ready ∧
    (∀ S ∈ (runPushes gapCues).ready, 0 < S.duration) ∧
    ChainFrom (firstStart gapCues) (maxEnd gapCues)
      (runPushes gapCues).ready :=
  webvtt_partition gapCues (by decide) (by decide) (by decide)

/-- C3: within every emitted sample's data, the cue boxes appear in
strictly increasing arrival-index (push) order: the data is the
concatenation over the index-annotated active list, whose indices are
strictly increasing. -/
theorem webvtt_arrival_order (cs : List Cue) (hs : sortedStarts cs)
    (hd : posDur cs) (S : OutputSample) (hS : S ∈ (runPushes cs).ready) :
    (activeIdx cs S.pts (S.pts + S.duration) ≠ [] →
      S.data = ((activeIdx cs S.pts (S.pts + S.duration)).map
        (fun q => serializeVTTCueBox q.2)).flatten) ∧
    List.Pairwise (fun i j => i < j)
      ((activeIdx cs S.pts (S.pts + S.duration)).map Prod.fst) := by
  refine ⟨?_, activeIdx_pairwise cs _ _⟩
  intro hne
  cases cs with
  | nil => exact absurd hS (List.not_mem_nil S)
  | cons c0 rest =>
    obtain ⟨hI', -, -⟩ := runPushes_master hs hd
    have hdata := hI'.2.2.2 S hS
    have hcne : activeCues (c0 :: rest) S.pts (S.pts + S.duration) ≠ [] := by
      intro h0
      apply hne
      have hmap := activeIdx_map_snd (c0 :: rest) S.pts (S.pts + S.duration)
      rw [h0] at hmap
      exact List.map_eq_nil_iff.mp hmap
    rw [hdata, expectedData, if_neg hcne, ← activeIdx_map_snd, List.map_map]
    rfl

theorem webvtt_arrival_order_witness :
    (activeIdx gapCues 0 (0 + 1000) ≠ [] →
      (⟨0, 1000, serializeVTTCueBox hiCue⟩ : OutputSample).data
        = ((activeIdx gapCues 0 (0 + 1000)).map
          (fun q => serializeVTTCueBox q.2)).flatten) ∧
    List.Pairwise (fun i j => i < j)
      ((activeIdx gapCues 0 (0 + 1000)).map Prod.fst) :=
  webvtt_arrival_order gapCues (by decide) (by decide)
    ⟨0, 1000, serializeVTTCueBox hiCue⟩ (by decide)

/-- C4: serializing a `VTTCueBox` whose only populated field is the
payload "some message" yields exactly the given 28 bytes, and a sub-box
(`'iden'`, `'sttg'`, `'payl'`) parses out of the cue payload iff the
corresponding string is non-empty. -/
theorem webvtt_cuebox_serialization :
    serializeVTTCueBox someMsgCue =
      [0x00, 0x00, 0x00, 0x1c, 0x76, 0x74, 0x74, 0x63,
       0x00, 0x00, 0x00, 0x14, 0x70, 0x61, 0x79, 0x6c,
       0x73, 0x6f, 0x6d, 0x65, 0x20, 0x6d, 0x65, 0x73, 0x73, 0x61, 0x67,
       0x65] ∧
    ∀ c : Cue, smallCue c →
      ((∃ s, (idenTag, s) ∈ parseBoxes (cuePayload c)) ↔ c.cue_id ≠ []) ∧
      ((∃ s, (sttgTag, s) ∈ parseBoxes (cuePayload c)) ↔ c.settings ≠ []) ∧
      ((∃ s, (paylTag, s) ∈ parseBoxes (cuePayload c)) ↔ c.cue_text ≠ []) := by
  refine ⟨by decide, ?_⟩
  intro c h
  rw [parseBoxes_cuePayload c h]
  exact ⟨cuePairs_iden_iff c, cuePairs_sttg_iff c, cuePairs_payl_iff c⟩

theorem webvtt_cuebox_serialization_witness :
    ((∃ s, (idenTag, s) ∈ parseBoxes (cuePayload someMsgCue)) ↔
      someMsgCue.cue_id ≠ []) ∧
    ((∃ s, (sttgTag, s) ∈ parseBoxes (cuePayload someMsgCue)) ↔
      someMsgCue.settings ≠ []) ∧
    ((∃ s, (paylTag, s) ∈ parseBoxes (cuePayload someMsgCue)) ↔
      someMsgCue.cue_text ≠ []) :=
  webvtt_cuebox_serialization.2 someMsgCue (by refine ⟨?_, ?_, ?_⟩ <;> decide)

/-- C5: a `VTTEmptyCueBox` serializes to exactly the 8 bytes
`00 00 00 08 76 74 74 65`; every sample emitted with an empty active
set carries exactly one such box and nothing else; and the Gap scenario
(push ("hi",0,1000), ("hello",2000,1000), flush) yields exactly the
three expected samples. -/
theorem webvtt_gap_encoding :
    serializeVTTEmptyCueBox = [0, 0, 0, 8, 0x76, 0x74, 0x74, 0x65] ∧
    (∀ cs, sortedStarts cs → posDur cs →
      ∀ S ∈ (runPushes cs).ready,
        activeCues cs S.pts (S.pts + S.duration) = [] →
          S.data = serializeVTTEmptyCueBox) ∧
    (runPushes gapCues).ready =
      [⟨0, 1000, serializeVTTCueBox hiCue⟩,
       ⟨1000, 1000, serializeVTTEmptyCueBox⟩,
       ⟨2000, 1000, serializeVTTCueBox helloCue⟩] := by
  refine ⟨by decide, ?_, by decide⟩
  intro cs hs hd S hS hemp
  cases cs with
  | nil => exact absurd hS (List.not_mem_nil S)
  | cons c0 rest =>
    obtain ⟨hI', -, -⟩ := runPushes_master hs hd
    rw [hI'.2.2.2 S hS, expectedData, if_pos hemp]

theorem webvtt_gap_encoding_witness :
    (⟨1000, 1000, serializeVTTEmptyCueBox⟩ : OutputSample).data
      = serializeVTTEmptyCueBox :=
  webvtt_gap_encoding.2.1 gapCues (by decide) (by decide)
    ⟨1000, 1000, serializeVTTEmptyCueBox⟩ (by decide) (by decide)

/-- C6: the cursor is initialized to the first cue's start time, no
emitted sample starts before the first cue's start, and the
leading-gap scenario (push ("hi",1200,2000), flush) yields exactly one
sample covering `[1200, 3200)`. -/
theorem webvtt_no_leading_gap :
    (∀ c : Cue, (pushSample initFragmenter c).cursor = c.start_time) ∧
    (∀ cs, cs ≠ [] → sortedStarts cs → posDur cs →
      ∀ S ∈ (runPushes cs).ready, firstStart cs ≤ S.pts) ∧
    (runPushes [leadCue]).ready =
      [⟨1200, 2000, serializeVTTCueBox leadCue⟩] := by
  refine ⟨fun c => rfl, ?_, by decide⟩
  intro cs hcs hs hd S hS
  cases cs with
  | nil => exact absurd rfl hcs
  | cons c0 rest =>
    obtain ⟨hI', -, -⟩ := runPushes_master hs hd
    exact (chainFrom_mem hI'.2.2.1 S hS).1

theorem webvtt_no_leading_gap_witness :
    firstStart [leadCue]
      ≤ (⟨1200, 2000, serializeVTTCueBox leadCue⟩ : OutputSample).pts :=
  webvtt_no_leading_gap.2.1 [leadCue] (by decide) (by decide) (by decide)
    ⟨1200, 2000, serializeVTTCueBox leadCue⟩ (by decide)

/-- C7: two cues with identical start times and different end times
(push ("hi",0,2000), ("hello",0,1500), flush) produce exactly two
samples, `[0,1500)` with both boxes in push order and `[1500,2000)`
with only the first cue's box. -/
theorem webvtt_same_start_time :
    (runPushes [ssCue1, ssCue2]).ready =
      [⟨0, 1500, serializeVTTCueBox ssCue1 ++ serializeVTTCueBox ssCue2⟩,
       ⟨1500, 500, serializeVTTCueBox ssCue1⟩] := by
  decide

/-- C8: a push whose cue starts past the cursor completes and enqueues,
during that push call itself, every sample covering
`[cursor, start_time)` — the ready queue then tiles
`[first start, start_time)` exactly; in the Gap scenario the queue
already holds the two samples right after the second push, before any
flush. -/
theorem webvtt_push_completes_samples :
    (∀ (cs : List Cue) (c : Cue), cs ≠ [] → sortedStarts cs → posDur cs →
      (pushAll cs).cursor < c.start_time →
      (pushSample (pushAll cs) c).cursor = c.start_time ∧
      ChainFrom (firstStart cs) c.start_time
        (pushSample (pushAll cs) c).ready) ∧
    (pushSample (pushSample initFragmenter hiCue) helloCue).ready =
      [⟨0, 1000, serializeVTTCueBox hiCue⟩,
       ⟨1000, 1000, serializeVTTEmptyCueBox⟩] := by
  refine ⟨?_, by decide⟩
  intro cs c hcs hs hd hadv
  cases cs with
  | nil => exact absurd rfl hcs
  | cons c0 rest =>
    have hinv := pushAll_inv (c0 :: rest) hs hd
    rw [FragInv, if_neg (List.cons_ne_nil _ _), firstStart_cons] at hinv
    obtain ⟨hstarted, hcur, hDI⟩ := hinv
    have hnotfresh : ¬ (pushAll (c0 :: rest)).started = false := by
      rw [hstarted]; simp
    have hred : pushSample (pushAll (c0 :: rest)) c =
        { advanceTo (pushAll (c0 :: rest)) c.start_time with
            active := (advanceTo (pushAll (c0 :: rest)) c.start_time).active
              ++ [c] } := by
      rw [pushSample, if_neg hnotfresh, if_pos hadv]
    obtain ⟨hDI1, hcur1⟩ := advanceTo_spec hDI (Nat.le_of_lt hadv)
    rw [hred]
    refine ⟨hcur1, ?_⟩
    have hchain := hDI1.2.2.1
    rw [hcur1] at hchain
    exact hchain

theorem webvtt_push_completes_samples_witness :
    (pushSample (pushAll [hiCue]) helloCue).cursor = helloCue.start_time ∧
    ChainFrom (firstStart [hiCue]) helloCue.start_time
      (pushSample (pushAll [hiCue]) helloCue).ready :=
  webvtt_push_completes_samples.1 [hiCue] helloCue (by decide) (by decide)
    (by decide) (by decide)

/-- C9: samples are emitted in non-decreasing pts order, and
`pop_sample` returns them first-in-first-out in exactly emission order:
popping takes the front of the ready queue, and popping repeatedly
yields the whole queue in order. -/
theorem webvtt_fifo_order :
    (∀ cs, sortedStarts cs → posDur cs →
      List.Chain' (fun S T => S.pts ≤ T.pts) (runPushes cs).ready) ∧
    (∀ st : WebVttFragmenter,
      popSample st = st.ready.head?.map
        (fun s => (s, { st with ready := st.ready.tail }))) ∧
    (∀ st : WebVttFragmenter, popAll st = st.ready) := by
  refine ⟨?_, ?_, popAll_eq⟩
  · intro cs hs hd
    cases cs with
    | nil =>
      rw [show (runPushes ([] : List Cue)).ready = [] from rfl]
      exact List.chain'_nil
    | cons c0 rest =>
      obtain ⟨hI', -, -⟩ := runPushes_master hs hd
      exact (chainFrom_chain' hI'.2.2.1).imp fun h => by omega
  · intro st
    cases h : st.ready with
    | nil => rw [popSample, h]; rfl
    | cons s rest => rw [popSample, h]; rfl

theorem webvtt_fifo_order_witness :
    List.Chain' (fun S T => S.pts ≤ T.pts) (runPushes gapCues).ready :=
  webvtt_fifo_order.1 gapCues (by decide) (by decide)

/-- C10: `MediaSample::CopyFrom` fail-fast rejects a null data pointer
(never returns a sample), the `MediaSample` constructor accepts a null
data pointer only when the size is 0, and every successful construction
copies exactly the given `size` bytes into the sample's buffer. -/
theorem mediaSample_copy_semantics :
    (∀ (size : Nat) (k : Bool), mediaSampleCopyFrom none size k = none) ∧
    (∀ (size : Nat) (sd : Option (List Nat)) (ssz : Nat) (k : Bool),
      (mediaSampleCtor none size sd ssz k).isSome ↔ size = 0) ∧
    (∀ (bs : List Nat) (size : Nat) (sd : Option (List Nat)) (ssz : Nat)
        (k : Bool) (s : MediaSample), size ≤ bs.length →
      mediaSampleCtor (some bs) size sd ssz k = some s →
      s.data = bs.take size ∧ s.data.length = size) ∧
    (∀ (bs : List Nat) (size : Nat) (k : Bool) (s : MediaSample),
      size ≤ bs.length →
      mediaSampleCopyFrom (some bs) size k = some s →
      s.data = bs.take size) := by
  refine ⟨fun _ _ => rfl, ?_, ?_, ?_⟩
  · intro size sd ssz k
    simp only [mediaSampleCtor]
    by_cases h : size = 0
    · simp [h]
    · simp [h]
  · intro bs size sd ssz k s hle hctor
    simp only [mediaSampleCtor] at hctor
    obtain rfl := Option.some_inj.mp hctor
    refine ⟨rfl, ?_⟩
    simp only [List.length_take]
    omega
  · intro bs size k s hle hcopy
    simp only [mediaSampleCopyFrom, mediaSampleCtor] at hcopy
    obtain rfl := Option.some_inj.mp hcopy
    rfl

theorem mediaSample_copy_semantics_witness :
    (⟨0, 0, 0, true, false, [1, 2], []⟩ : MediaSample).data
      = [1, 2, 3].take 2 :=
  mediaSample_copy_semantics.2.2.2 [1, 2, 3] 2 true
    ⟨0, 0, 0, true, false, [1, 2], []⟩ (by decide) rfl
